import Mathlib

/-!
Verification of the goflow engine specification against a shallow embedding
of the repository source.  Each section embeds one part of the Go source
(flows/modifiers/name.go, the webhook action, the Excellent value
conversions, the dict type, the URN list, and the context resolver in
utils/misc.go) as executable Lean definitions, and proves the spec claims
about them.
-/

namespace Goflow

/-! ## Webhook call classification (src/unnamed/part_004, callStatus) -/

/-- Embedding of the HTTP response held by a webhook call: only the status
code is inspected by the classifier.  StatusCode in Go is an int. -/
structure HTTPResponse where
  statusCode : Int
deriving DecidableEq, Repr

/-- Embedding of flows.WebhookCall as far as callStatus inspects it:
the Response field may be nil (none). -/
structure WebhookCall where
  response : Option HTTPResponse
deriving DecidableEq, Repr

/-- Embedding of flows.CallStatus. -/
inductive CallStatus where
  | success
  | connectionError
  | subscriberGone
  | responseError
deriving DecidableEq, Repr

/-- Embedding of callStatus from the call_webhook action.  The Go code is:
nil Response or non-nil err gives ConnectionError; then resthook mode and
status 410 gives SubscriberGone; then StatusCode/100 == 2 (Go integer
division truncates toward zero) gives Success; otherwise ResponseError.
The transport error is modelled by its presence (errPresent). -/
def callStatus (call : WebhookCall) (errPresent : Bool) (isResthook : Bool) : CallStatus :=
  match call.response with
  | none => .connectionError
  | some resp =>
    if errPresent then .connectionError
    else if isResthook ∧ resp.statusCode = 410 then .subscriberGone
    else if Int.tdiv resp.statusCode 100 = 2 then .success
    else .responseError

/-- Classification as worded by the spec claim: ConnectionError when the
response is nil or the transport error is present; SubscriberGone when
resthook mode and status 410; Success when the status is in the interval
from 200 inclusive to 300 exclusive; ResponseError otherwise, in that
order of precedence. -/
def callStatusSpec (call : WebhookCall) (errPresent : Bool) (isResthook : Bool) : CallStatus :=
  if call.response = none ∨ errPresent then .connectionError
  else
    match call.response with
    | none => .connectionError
    | some resp =>
      if isResthook ∧ resp.statusCode = 410 then .subscriberGone
      else if 200 ≤ resp.statusCode ∧ resp.statusCode < 300 then .success
      else .responseError

/-! ## URN lists (src/unnamed/part_003, URNList.WithScheme) -/

/-- Embedding of flows.ContactURN: a raw URN string plus an optional
associated channel, which we identify by its UUID string. -/
structure ContactURN where
  urn : String
  channel : Option String
deriving DecidableEq, Repr

/-- Scheme of a URN string, as urns.URN.Scheme returns the part of the
string before the first colon. -/
def urnScheme (u : String) : String :=
  ⟨u.data.takeWhile (fun c => ¬ (c = ':'))⟩

/-- Embedding of URNList.WithScheme: the Go loop appends to a fresh list
every URN whose scheme equals the requested one, leaving the receiver
untouched. -/
def withScheme (l : List ContactURN) (scheme : String) : List ContactURN :=
  l.foldl (fun matching u => if urnScheme u.urn = scheme then matching ++ [u] else matching) []

/-! ## Theorems for C2 and C9 -/

/-- Integer division by 100 equals 2 exactly on the interval from 200 to 299,
for Go-style truncating division. -/
lemma tdiv100_eq_two (s : Int) : Int.tdiv s 100 = 2 ↔ 200 ≤ s ∧ s < 300 := by
  constructor
  · intro h
    rcases le_or_lt 0 s with hs | hs
    · rw [Int.tdiv_eq_ediv hs (by norm_num)] at h
      omega
    · have h1 : 0 ≤ Int.tdiv (-s) 100 := Int.tdiv_nonneg (by omega) (by norm_num)
      have h2 : Int.tdiv s 100 = -(Int.tdiv (-s) 100) := by
        rw [← Int.neg_tdiv, neg_neg]
      omega
  · intro h
    rw [Int.tdiv_eq_ediv (by omega) (by norm_num)]
    omega

/-- C2: the webhook outcome classification returns ConnectionError when the
response is nil or the transport error is non-nil; SubscriberGone when in
resthook mode with HTTP status 410; Success when the status is in the
interval from 200 inclusive to 300 exclusive; and ResponseError otherwise,
in that order of precedence — i.e. callStatus agrees with the spec-worded
classifier on every input. -/
theorem c2_callStatus_classification :
    ∀ (call : WebhookCall) (errPresent isResthook : Bool),
      callStatus call errPresent isResthook = callStatusSpec call errPresent isResthook := by
  intro call errPresent isResthook
  cases call with
  | mk response =>
    cases response with
    | none => simp [callStatus, callStatusSpec]
    | some resp =>
      simp only [callStatus, callStatusSpec]
      by_cases he : errPresent
      · simp [he]
      · simp only [he, if_neg, Option.some_ne_none, false_or, if_false]
        by_cases hr : isResthook ∧ resp.statusCode = 410
        · simp [hr]
        · simp only [hr, if_false]
          by_cases hd : Int.tdiv resp.statusCode 100 = 2
          · have := (tdiv100_eq_two resp.statusCode).mp hd
            simp [hd, this]
          · have : ¬ (200 ≤ resp.statusCode ∧ resp.statusCode < 300) := by
              intro hc
              exact hd ((tdiv100_eq_two resp.statusCode).mpr hc)
            simp [hd, this]

/-- Folding the append-if-matching loop from any accumulator produces that
accumulator followed by the matching elements, in order. -/
lemma withScheme_foldl_eq (s : String) :
    ∀ (l : List ContactURN) (acc : List ContactURN),
      l.foldl (fun matching u => if urnScheme u.urn = s then matching ++ [u] else matching) acc
        = acc ++ l.filter (fun u => decide (urnScheme u.urn = s)) := by
  intro l
  induction l with
  | nil => intro acc; simp
  | cons u rest ih =>
    intro acc
    by_cases h : urnScheme u.urn = s
    · simp [List.foldl_cons, h, ih]
    · simp [List.foldl_cons, h, ih]

/-- C9: WithScheme returns exactly the URNs of the list whose scheme equals
the requested scheme, in their original relative order (it equals the order
preserving filter, and is a sublist of the source, which the pure loop never
mutates); on the list tel:+1, mailto:x, tel:+2 with scheme tel it returns
tel:+1 followed by tel:+2. -/
theorem c9_withScheme_filters :
    (∀ (l : List ContactURN) (s : String),
        withScheme l s = l.filter (fun u => decide (urnScheme u.urn = s))
          ∧ (withScheme l s).Sublist l)
    ∧ withScheme [⟨"tel:+1", none⟩, ⟨"mailto:x", none⟩, ⟨"tel:+2", none⟩] "tel"
        = [⟨"tel:+1", none⟩, ⟨"tel:+2", none⟩] := by
  refine ⟨fun l s => ?_, by decide⟩
  have h : withScheme l s = l.filter (fun u => decide (urnScheme u.urn = s)) := by
    simpa [withScheme] using withScheme_foldl_eq s l []
  exact ⟨h, h ▸ List.filter_sublist l⟩

/-! ## Excellent value model (src/unnamed/part_000 and part_001)

XValue is the dynamically typed value of the expression language.  XNumber
wraps an arbitrary precision decimal (shopspring decimal), which we embed as
a rational number; every value a decimal can hold is a rational whose
denominator divides a power of ten.  -/

/-- Embedding of the expression values used by the conversion functions and
the dict type: nil, XError, XNumber, XText, XBoolean and XDict.  A dict is
a finite map embedded as an entry list with distinct keys; the Go map has
no insertion order, which is captured by proving order independence. -/
inductive XV where
  | xnil
  | xerror (m : String)
  | xnumber (q : Rat)
  | xtext (s : String)
  | xbool (b : Bool)
  | xdictV (entries : List (String × XV))

/-- Value of a run of decimal digit characters. -/
def digitsVal (ds : List Char) : Nat :=
  ds.foldl (fun acc c => acc * 10 + (c.toNat - ('0').toNat)) 0

/-- Exponent suffix of the decimal grammar accepted by decimal.NewFromString:
an optional sign followed by one or more digits and nothing else, scaling the
already parsed mantissa by the corresponding power of ten. -/
def parseExpPart (base : Rat) (cs : List Char) : Option Rat :=
  let p : Int × List Char :=
    match cs with
    | '+' :: r => (1, r)
    | '-' :: r => (-1, r)
    | r => (1, r)
  let ds := p.2.takeWhile Char.isDigit
  let rest := p.2.dropWhile Char.isDigit
  if ds = [] ∨ rest ≠ [] then none
  else
    let e : Int := p.1 * (digitsVal ds : Int)
    if 0 ≤ e then some (base * (10 : Rat) ^ e.toNat)
    else some (base / (10 : Rat) ^ (-e).toNat)

/-- Strict decimal grammar of decimal.NewFromString, the parser used by
ToXNumber on text: an optional sign, an integer digit run, an optional
fractional part that must contain at least one digit, and an optional
exponent part; nothing else is accepted. -/
def parseDecimal (s : String) : Option Rat :=
  let p : Rat × List Char :=
    match s.data with
    | '+' :: r => (1, r)
    | '-' :: r => (-1, r)
    | r => (1, r)
  let intD := p.2.takeWhile Char.isDigit
  let rest1 := p.2.dropWhile Char.isDigit
  match rest1 with
  | [] => if intD = [] then none else some (p.1 * (digitsVal intD : Rat))
  | '.' :: r =>
      let fracD := r.takeWhile Char.isDigit
      let rest2 := r.dropWhile Char.isDigit
      if fracD = [] then none
      else
        let base := p.1 * ((digitsVal intD : Rat) + (digitsVal fracD : Rat) / (10 : Rat) ^ fracD.length)
        match rest2 with
        | [] => some base
        | c :: r2 => if c = 'e' ∨ c = 'E' then parseExpPart base r2 else none
  | c :: r2 =>
      if (c = 'e' ∨ c = 'E') ∧ intD ≠ [] then
        parseExpPart (p.1 * (digitsVal intD : Rat)) r2
      else none

/-- Canonical decimal text of a number, as decimal.Decimal.String renders it:
the digits of the scaled numerator with a decimal point inserted according to
the scale.  Every decimal value has a denominator dividing a power of ten;
other rationals (unreachable from decimal constructors) fall back to a
fraction form. -/
def renderRat (q : Rat) : String :=
  let sign := if q.num < 0 then "-" else ""
  let n := q.num.natAbs
  match (List.range 64).find? (fun k => decide (q.den ∣ 10 ^ k)) with
  | some 0 => sign ++ toString n
  | some k =>
      let scaled := n * (10 ^ k / q.den)
      let s := toString scaled
      let s := if s.length ≤ k then String.mk (List.replicate (k + 1 - s.length) '0') ++ s else s
      sign ++ (s.take (s.length - k)) ++ "." ++ (s.drop (s.length - k))
  | none => sign ++ toString n ++ "/" ++ toString q.den

/-- Describe text for values, used inside conversion error messages.
XNumber.Describe renders the number and the dict describes itself as dict
(both from src); the remaining cases follow the describe operation of the
spec value model. -/
def describeX : XV → String
  | .xnil => "null"
  | .xerror _ => "error"
  | .xnumber q => renderRat q
  | .xtext s => s
  | .xbool b => if b then "true" else "false"
  | .xdictV _ => "dict"

/-- Message of the conversion error produced by ToXNumber. -/
def convErrMsg (x : XV) : String :=
  "unable to convert " ++ describeX x ++ " to a number"

/-- Embedding of ToXNumber: an XError input is returned as the error with the
zero number; an XNumber is returned unchanged; an XText is parsed with the
strict decimal grammar; every remaining case, including unparsable text and
nil, falls through to a conversion error paired with the zero number. -/
def toXNumber (x : XV) : Rat × Option String :=
  match x with
  | .xerror m => (0, some m)
  | .xnumber q => (q, none)
  | .xtext s =>
      match parseDecimal s with
      | some q => (q, none)
      | none => (0, some (convErrMsg (.xtext s)))
  | other => (0, some (convErrMsg other))

/-- Conversion of an unbounded integer to int64 as big.Int.Int64 performs
it: the low 64 bit word of the absolute value is read as a two's complement
int64, and for a negative big integer that int64 is negated with int64
wraparound (negating the minimum int64 yields itself).  Magnitudes of
2 to the 64th and beyond lose their high bits. -/
def int64Wrap (t : Int) : Int :=
  let low : Nat := t.natAbs % 2 ^ 64
  let v : Int := if low < 2 ^ 63 then (low : Int) else (low : Int) - 2 ^ 64
  if t < 0 then (if v = -(2 ^ 63) then v else -v) else v

/-- Integer part of a rational as decimal.Decimal.IntPart computes it: the
exact truncation toward zero (rescale to exponent zero) read out through
big.Int.Int64, which wraps modulo 2 to the 64th for large magnitudes. -/
def intPartRat (q : Rat) : Int := int64Wrap (Int.tdiv q.num (q.den : Int))

/-- Lower bound of the 32 bit signed range (math.MinInt32). -/
def mathMinInt32 : Int := -(2 ^ 31)

/-- Upper bound of the 32 bit signed range (math.MaxInt32). -/
def mathMaxInt32 : Int := 2 ^ 31 - 1

/-- Embedding of ToInteger: delegate to ToXNumber, take the integer part
through IntPart (exact truncation followed by the 64 bit wrapping read), and
fail with a range error when that value falls outside the 32 bit signed
range. -/
def toInteger (x : XV) : Int × Option String :=
  match toXNumber x with
  | (_, some e) => (0, some e)
  | (q, none) =>
      let ip := intPartRat q
      if ip < mathMinInt32 ∨ ip > mathMaxInt32 then
        (0, some ("number value " ++ renderRat q ++ " is out of range for an integer"))
      else (ip, none)

/-! ## Theorems for C5 and C6 -/

/-- C5 counterexample: the claim says every kind other than Number and
parseable Text fails with a conversion error, but an Error input is
propagated unchanged — ToXNumber of the error boom returns the error boom
itself (with the zero sentinel), not the conversion error message. -/
theorem c5_counterexample_error_propagated :
    toXNumber (XV.xerror "boom") = (0, some "boom")
      ∧ "boom" ≠ convErrMsg (XV.xerror "boom") := by
  constructor
  · rfl
  · decide

/-- C5 amended: toNumber returns a Number unchanged; parses Text with the
strict decimal grammar, succeeding exactly when the parser does; propagates
an Error input as the returned error (rather than wrapping it in a
conversion error); and for every other kind, or unparsable text, fails with
a conversion error — always returning the zero number as the sentinel
alongside the error. -/
theorem c5_toXNumber_cases : ∀ (v : XV),
    (∀ q, v = XV.xnumber q → toXNumber v = (q, none))
    ∧ (∀ s q, v = XV.xtext s → parseDecimal s = some q → toXNumber v = (q, none))
    ∧ (∀ s, v = XV.xtext s → parseDecimal s = none → toXNumber v = (0, some (convErrMsg v)))
    ∧ (∀ m, v = XV.xerror m → toXNumber v = (0, some m))
    ∧ ((∀ q, v ≠ XV.xnumber q) → (∀ s, v ≠ XV.xtext s) → (∀ m, v ≠ XV.xerror m) →
        toXNumber v = (0, some (convErrMsg v))) := by
  intro v
  refine ⟨?_, ?_, ?_, ?_, ?_⟩
  · rintro q rfl; rfl
  · rintro s q rfl hp; simp [toXNumber, hp]
  · rintro s rfl hp; simp [toXNumber, hp]
  · rintro m rfl; rfl
  · intro hq hs hm
    cases v with
    | xnil => rfl
    | xerror m => exact absurd rfl (hm m)
    | xnumber q => exact absurd rfl (hq q)
    | xtext s => exact absurd rfl (hs s)
    | xbool b => rfl
    | xdictV es => rfl

/-- Witness for the C5 amended theorem at concrete inputs: the text abc is
not parseable and converts to a conversion error with the zero sentinel,
and the number five is returned unchanged. -/
theorem c5_toXNumber_cases_witness :
    toXNumber (XV.xtext "abc") = (0, some (convErrMsg (XV.xtext "abc")))
      ∧ toXNumber (XV.xnumber 5) = (5, none) :=
  ⟨(c5_toXNumber_cases (XV.xtext "abc")).2.2.1 "abc" rfl (by decide),
   (c5_toXNumber_cases (XV.xnumber 5)).1 5 rfl⟩

/-- C6 counterexample: the claim says toInteger fails with a range error
exactly when the truncated integer part lies outside the 32 bit signed
range, but IntPart reads the truncated value through big.Int.Int64, which
wraps modulo 2 to the 64th: on the number 2 to the 64th — whose exact
integer part exceeds the 32 bit maximum — the wrapped integer part is 0,
the range check passes, and toInteger returns 0 with no error. -/
theorem c6_counterexample_int64_wrap :
    toInteger (XV.xnumber ((2 ^ 64 : Nat) : Rat)) = (0, none)
      ∧ mathMaxInt32 < ((2 : Int) ^ 64) := by
  constructor
  · decide
  · decide

/-- The 64 bit wrapping read is the identity on integers within the signed
64 bit range. -/
lemma int64Wrap_eq_self (t : Int) (h1 : -(2 ^ 63) ≤ t) (h2 : t ≤ 2 ^ 63 - 1) :
    int64Wrap t = t := by
  simp only [int64Wrap]
  have hmod : t.natAbs % 2 ^ 64 = t.natAbs := Nat.mod_eq_of_lt (by omega)
  rw [hmod]
  by_cases hneg : t < 0
  · by_cases hlow : t.natAbs < 2 ^ 63
    · rw [if_pos hlow, if_pos hneg]
      rw [if_neg (by omega)]
      omega
    · rw [if_neg hlow, if_pos hneg]
      rw [if_pos (by omega)]
      omega
  · rw [if_neg hneg, if_pos (show t.natAbs < 2 ^ 63 by omega)]
    omega

/-- C6 amended: toInteger delegates to toNumber (propagating its error with
a zero result), takes the integer part of the number through the truncating
rescale followed by the 64 bit wrapping Int64 read, fails with the range
error exactly when that wrapped integer part lies outside the 32 bit signed
range, and otherwise returns the wrapped integer part; for numbers whose
exact truncated integer part already lies within the signed 64 bit range
the wrap is the identity, so there the range error fires exactly when the
exact integer part is outside the 32 bit range — while magnitudes at or
beyond 2 to the 63rd can wrap back inside and be returned without error. -/
theorem c6_toInteger_range : ∀ (x : XV),
    (∀ q e, toXNumber x = (q, some e) → toInteger x = (0, some e))
    ∧ (∀ q, toXNumber x = (q, none) →
        ((mathMinInt32 ≤ intPartRat q ∧ intPartRat q ≤ mathMaxInt32) →
            toInteger x = (intPartRat q, none))
        ∧ ((intPartRat q < mathMinInt32 ∨ mathMaxInt32 < intPartRat q) →
            toInteger x =
              (0, some ("number value " ++ renderRat q ++ " is out of range for an integer"))))
    ∧ (∀ q, -(2 ^ 63) ≤ Int.tdiv q.num (q.den : Int) →
        Int.tdiv q.num (q.den : Int) ≤ 2 ^ 63 - 1 →
        intPartRat q = Int.tdiv q.num (q.den : Int)) := by
  intro x
  refine ⟨fun q e he => by simp [toInteger, he], fun q hq => ⟨?_, ?_⟩,
    fun q h1 h2 => int64Wrap_eq_self _ h1 h2⟩
  · intro hin
    have hcond : ¬ (intPartRat q < mathMinInt32 ∨ intPartRat q > mathMaxInt32) := by
      push_neg
      exact ⟨not_lt.mp (not_lt.mpr hin.1), hin.2⟩
    simp only [toInteger, hq]
    rw [if_neg hcond]
  · intro hout
    have hcond : intPartRat q < mathMinInt32 ∨ intPartRat q > mathMaxInt32 := by
      rcases hout with h | h
      · exact Or.inl h
      · exact Or.inr h
    simp only [toInteger, hq]
    rw [if_pos hcond]

/-- Witness for the C6 amended theorem at concrete inputs: the decimal
12345678901 — within the signed 64 bit range, so wrapped to itself — exceeds
the 32 bit signed range and fails with the range error, while the number
five is returned as the integer five. -/
theorem c6_toInteger_range_witness :
    toInteger (XV.xnumber ((12345678901 : Nat) : Rat))
        = (0, some ("number value " ++ renderRat ((12345678901 : Nat) : Rat)
            ++ " is out of range for an integer"))
      ∧ toInteger (XV.xnumber 5) = (5, none)
      ∧ intPartRat ((12345678901 : Nat) : Rat)
          = Int.tdiv ((12345678901 : Nat) : Rat).num ((((12345678901 : Nat) : Rat).den : Int)) := by
  refine ⟨?_, ?_, ?_⟩
  · exact ((c6_toInteger_range (XV.xnumber ((12345678901 : Nat) : Rat))).2.1
      ((12345678901 : Nat) : Rat) rfl).2 (by decide)
  · exact ((c6_toInteger_range (XV.xnumber 5)).2.1 5 rfl).1 (by decide)
  · exact (c6_toInteger_range (XV.xnumber 5)).2.2 ((12345678901 : Nat) : Rat)
      (by decide) (by decide)

/-! ## Name modifier (src/flows/modifiers/name.go) -/

/-- Embedding of the name modifier payload. -/
structure NameModifier where
  name : String
deriving DecidableEq, Repr

/-- Contact state as far as the name modifier touches it. -/
structure Contact where
  name : String
deriving DecidableEq, Repr

/-- Environment as far as the name modifier reads it: the maximum stored
value length. -/
structure ModEnv where
  maxValueLength : Nat
deriving DecidableEq, Repr

/-- Events emitted by the name modifier. -/
inductive ModEvent where
  | contactNameChanged (name : String)
deriving DecidableEq, Repr

/-- Modelled from the spec: utils.Truncate, which is not under src, applies
the environment-level value-length truncation before text is stored — the
text is cut down to at most the maximum length. -/
def truncateVal (s : String) (maxLen : Nat) : String :=
  ⟨s.data.take maxLen⟩

/-- Embedding of NameModifier.Apply: when the contact name differs from the
modifier payload, the payload is truncated to the environment maximum, the
contact name is set to the truncated text, one contact-name-changed event is
emitted and true is returned; otherwise false is returned with no event and
no mutation.  The returned triple is (changed, contact after, events). -/
def applyName (m : NameModifier) (env : ModEnv) (c : Contact) :
    Bool × Contact × List ModEvent :=
  if c.name ≠ m.name then
    let n := truncateVal m.name env.maxValueLength
    (true, ⟨n⟩, [.contactNameChanged n])
  else (false, c, [])

/-! ## Theorems for C1 -/

/-- C1 counterexample: with a maximum value length of one, the modifier
whose payload is the two character name ab changes an empty-named contact
(returning true and emitting exactly one event, storing the truncated name
a), yet a second application of the same modifier to the resulting contact
again returns true and again emits an event — the stored truncated name
never equals the untruncated payload, so the apply is not idempotent as
claimed. -/
theorem c1_counterexample_truncation_breaks_idempotence :
    (applyName ⟨"ab"⟩ ⟨1⟩ ⟨""⟩).1 = true
      ∧ (applyName ⟨"ab"⟩ ⟨1⟩ ⟨""⟩).2.2.length = 1
      ∧ (applyName ⟨"ab"⟩ ⟨1⟩ (applyName ⟨"ab"⟩ ⟨1⟩ ⟨""⟩).2.1).1 = true
      ∧ (applyName ⟨"ab"⟩ ⟨1⟩ (applyName ⟨"ab"⟩ ⟨1⟩ ⟨""⟩).2.1).2.2 ≠ [] := by
  refine ⟨rfl, rfl, rfl, ?_⟩
  decide

/-- C1 amended: provided the environment truncation leaves the modifier
payload unchanged (the name fits within the maximum value length), applying
the modifier is idempotent — whenever a first Apply returns changed true, it
emits exactly one contact-name-changed event carrying the truncated stored
text, and a second Apply of the same modifier on the resulting contact
returns changed false, leaves the contact as is, and emits no event. -/
theorem c1_applyName_idempotent_within_limit :
    ∀ (m : NameModifier) (env : ModEnv) (c : Contact),
      truncateVal m.name env.maxValueLength = m.name →
      (applyName m env c).1 = true →
      (applyName m env c).2.2
          = [ModEvent.contactNameChanged (truncateVal m.name env.maxValueLength)]
        ∧ applyName m env (applyName m env c).2.1 = (false, (applyName m env c).2.1, []) := by
  intro m env c htr hch
  by_cases h : c.name ≠ m.name
  · constructor
    · simp [applyName, h]
    · simp [applyName, h, htr]
  · exfalso
    simp [applyName, h] at hch

/-- Witness for the C1 amended theorem: a payload of two characters under a
maximum length of ten survives truncation, the first apply changes the
contact with one event, and the second apply is a no-op. -/
theorem c1_applyName_idempotent_within_limit_witness :
    (applyName ⟨"ab"⟩ ⟨10⟩ ⟨""⟩).2.2
        = [ModEvent.contactNameChanged (truncateVal "ab" 10)]
      ∧ applyName ⟨"ab"⟩ ⟨10⟩ (applyName ⟨"ab"⟩ ⟨10⟩ ⟨""⟩).2.1
          = (false, (applyName ⟨"ab"⟩ ⟨10⟩ ⟨""⟩).2.1, []) :=
  c1_applyName_idempotent_within_limit ⟨"ab"⟩ ⟨10⟩ ⟨""⟩ (by decide) rfl

/-! ## Path segment splitting (src/utils/misc.go, popNextVariable)

The splitter works on the rune sequence of the path, so it is embedded over
lists of characters.  -/

/-- Characters at which the scanning loop of popNextVariable stops: an
opening bracket, a closing bracket, or a dot. -/
def isSpecialChar (c : Char) : Bool :=
  c == '[' || c == ']' || c == '.'

/-- Position and identity of the first stopping character of a list, if
any — the scanning loop of popNextVariable. -/
def findSpecial : List Char → Option (Nat × Char)
  | [] => none
  | c :: rest =>
      if isSpecialChar c then some (0, c)
      else (findSpecial rest).map (fun p => (p.1 + 1, p.2))

/-- Embedding of strings.Trim with a cutset of one double quote character:
all leading and trailing quotes are removed. -/
def trimQuotes (l : List Char) : List Char :=
  ((l.dropWhile (fun c => c == '"')).reverse.dropWhile (fun c => c == '"')).reverse

/-- Embedding of popNextVariable: the key starts after a leading opening
bracket if present; scanning stops at the first special character after it —
at an opening bracket the rest starts at that bracket, at a closing bracket
or dot the rest starts one past it; with no special character the whole
input is the key with an empty rest.  The key has surrounding quotes
trimmed. -/
def popNextVariable (input : List Char) : List Char × List Char :=
  let keyStart := if input.head? = some '[' then 1 else 0
  match findSpecial (input.drop keyStart) with
  | none => (input, [])
  | some jc =>
      let keyEnd := keyStart + jc.1
      let restStart := if jc.2 = '[' then keyEnd else keyEnd + 1
      (trimQuotes ((input.drop keyStart).take jc.1), input.drop restStart)

/-! ## Theorems for C4 -/

/-- C4 counterexample: the claim says a bracketed quoted segment retains
embedded special characters literally, but the scanner does not track
quoting — on the path consisting of a bracketed quoted key a.b, the dot
inside the quotes ends the segment, producing the segment a (and a dangling
rest) instead of the single segment a.b. -/
theorem c4_counterexample_quoted_dot_splits :
    popNextVariable ("[\"a.b\"]".data) = ("a".data, "b\"]".data)
      ∧ "a".data ≠ "a.b".data := by
  constructor
  · rfl
  · decide

/-- First stopping character of a clean list followed by a special
character: found exactly at the junction. -/
lemma findSpecial_clean_append (a : List Char) (c : Char) (rest : List Char)
    (ha : ∀ x ∈ a, isSpecialChar x = false) (hc : isSpecialChar c = true) :
    findSpecial (a ++ c :: rest) = some (a.length, c) := by
  induction a with
  | nil => simp [findSpecial, hc]
  | cons x xs ih =>
      have hx : isSpecialChar x = false := ha x (List.mem_cons_self x xs)
      have ihx := ih (fun y hy => ha y (List.mem_cons_of_mem x hy))
      simp [findSpecial, hx, ihx]

/-- Value of popNextVariable when the input does not start with an opening
bracket and the first special character found is not an opening bracket. -/
lemma popNextVariable_nobracket (input : List Char) (h0 : ¬ (input.head? = some '['))
    (j : Nat) (c : Char) (hfs : findSpecial input = some (j, c)) (hc : ¬ (c = '[')) :
    popNextVariable input = (trimQuotes (input.take j), input.drop (j + 1)) := by
  simp only [popNextVariable, if_neg h0, List.drop_zero, hfs, hc, if_false, Nat.zero_add]

/-- Value of popNextVariable when the input starts with an opening bracket
and the first special character found after it is not an opening bracket. -/
lemma popNextVariable_bracket (t : List Char) (j : Nat) (c : Char)
    (hfs : findSpecial t = some (j, c)) (hc : ¬ (c = '[')) :
    popNextVariable ('[' :: t) = (trimQuotes (t.take j), ('[' :: t).drop (1 + j + 1)) := by
  simp only [popNextVariable, List.head?_cons, Option.some.injEq, ite_true, if_pos rfl,
    List.drop_succ_cons, List.drop_zero, hfs, hc, if_false]

/-- C4 amended: segment splitting ends a segment at any dot or bracket
boundary, quoted or not; a segment of ordinary characters before a dot is
returned with surrounding quotes trimmed and the rest starts after the dot,
and a bracketed quoted segment is returned as one segment — with surrounding
quotes trimmed — only when its embedded characters are not themselves dots
or brackets. -/
theorem c4_popNextVariable_splitting :
    (∀ (a rest : List Char), (∀ c ∈ a, isSpecialChar c = false) →
        a.head? ≠ some '[' →
        popNextVariable (a ++ '.' :: rest) = (trimQuotes a, rest))
    ∧ (∀ (s rest : List Char), (∀ c ∈ s, isSpecialChar c = false) →
        popNextVariable ('[' :: '"' :: s ++ '"' :: ']' :: rest)
          = (trimQuotes ('"' :: s ++ ['"']), rest)) := by
  constructor
  · intro a rest ha hhead
    have hks : ¬ ((a ++ '.' :: rest).head? = some '[') := by
      cases a with
      | nil => simp
      | cons x xs =>
          intro h
          simp only [List.cons_append, List.head?_cons, Option.some.injEq] at h
          exact hhead (by simp [h])
    have hfs : findSpecial (a ++ '.' :: rest) = some (a.length, '.') :=
      findSpecial_clean_append a '.' rest ha rfl
    have htake : (a ++ '.' :: rest).take a.length = a := by
      simp
    have hdrop : (a ++ '.' :: rest).drop (a.length + 1) = rest := by
      have h1 : a ++ '.' :: rest = (a ++ ['.']) ++ rest := by simp
      have h2 : (a ++ ['.']).length = a.length + 1 := by simp
      rw [h1, ← h2, List.drop_left]
    rw [popNextVariable_nobracket (a ++ '.' :: rest) hks a.length '.' hfs (by decide),
      htake, hdrop]
  · intro s rest hs
    have hclean : ∀ x ∈ '"' :: s ++ ['"'], isSpecialChar x = false := by
      intro x hx
      rcases List.mem_cons.mp hx with h | h
      · subst h; decide
      · rcases List.mem_append.mp h with h2 | h2
        · exact hs x h2
        · simp only [List.mem_singleton] at h2; subst h2; decide
    have hfs : findSpecial ('"' :: s ++ '"' :: ']' :: rest)
        = some (s.length + 2, ']') := by
      have h := findSpecial_clean_append ('"' :: s ++ ['"']) ']' rest hclean rfl
      have hlen : ('"' :: s ++ ['"']).length = s.length + 2 := by simp
      have hsh : ('"' :: s ++ ['"']) ++ ']' :: rest = '"' :: s ++ '"' :: ']' :: rest := by
        simp
      rw [hsh, hlen] at h
      exact h
    have htake : ('"' :: s ++ '"' :: ']' :: rest).take (s.length + 2)
        = '"' :: s ++ ['"'] := by
      have h1 : '"' :: s ++ '"' :: ']' :: rest = ('"' :: s ++ ['"']) ++ ']' :: rest := by simp
      have h2 : ('"' :: s ++ ['"']).length = s.length + 2 := by simp
      rw [h1, ← h2, List.take_left]
    have hdrop : ('[' :: ('"' :: s ++ '"' :: ']' :: rest)).drop (1 + (s.length + 2) + 1)
        = rest := by
      have h1 : '[' :: ('"' :: s ++ '"' :: ']' :: rest)
          = ('[' :: '"' :: s ++ ['"', ']']) ++ rest := by simp
      have h2 : ('[' :: '"' :: s ++ ['"', ']']).length = 1 + (s.length + 2) + 1 := by
        simp
        omega
      rw [h1, ← h2, List.drop_left]
    rw [show ('[' :: '"' :: s ++ '"' :: ']' :: rest)
        = '[' :: ('"' :: s ++ '"' :: ']' :: rest) by simp]
    rw [popNextVariable_bracket ('"' :: s ++ '"' :: ']' :: rest) (s.length + 2) ']'
      hfs (by decide), htake, hdrop]

/-- Witness for the C4 amended theorem: the path foo.bar splits into the
segment foo with rest bar, and a bracketed quoted key containing a space
splits into the single segment my key (quotes trimmed) with the rest
following the closing bracket. -/
theorem c4_popNextVariable_splitting_witness :
    popNextVariable ("foo".data ++ '.' :: "bar".data) = (trimQuotes "foo".data, "bar".data)
      ∧ popNextVariable ('[' :: '"' :: "my key".data ++ '"' :: ']' :: "x".data)
          = (trimQuotes ('"' :: "my key".data ++ ['"']), "x".data) :=
  ⟨c4_popNextVariable_splitting.1 "foo".data "bar".data (by decide) (by decide),
   c4_popNextVariable_splitting.2 "my key".data "x".data (by decide)⟩

/-! ## Dict rendering (src/unnamed/part_001, xdict.ToXText) -/

/-- Lexicographic comparison of character lists by code point, which for
UTF-8 encoded text is the byte order sort.Strings uses. -/
def charListLe : List Char → List Char → Bool
  | [], _ => true
  | _ :: _, [] => false
  | c :: cs, d :: ds =>
      if c < d then true
      else if d < c then false
      else charListLe cs ds

/-- Lexicographic ascending order on strings, as sort.Strings compares. -/
def strLe (a b : String) : Bool := charListLe a.data b.data

/-- Assembly step of xdict.ToXText on entries whose values are already
rendered to text: the keys are sorted ascending (sort.Strings), each key is
joined with the text of its value as key colon space value, and the pairs
are joined with comma space inside braces.  Since the keys of a dict are
distinct, rendering the values before sorting the keys is the same as
sorting first, and the sort result is the unique ascending ordering. -/
def renderDict (ps : List (String × String)) : String :=
  "\x7b" ++ String.intercalate ", "
    ((List.insertionSort (fun a b => strLe a b = true) (ps.map Prod.fst)).map
      (fun k => k ++ ": " ++ (((ps.find? (fun p => p.1 == k)).map Prod.snd).getD "")))
    ++ "\x7d"

/-- Canonical text of a value — the render operation (ToXText): numbers
render as their decimal text, text as itself, booleans as true or false, an
error renders inline as its message, and a dict renders its entries with
keys sorted ascending. -/
def renderX : XV → String
  | .xnil => ""
  | .xerror m => m
  | .xnumber q => renderRat q
  | .xtext s => s
  | .xbool b => if b then "true" else "false"
  | .xdictV es => renderDict (es.attach.map (fun p => (p.1.1, renderX p.1.2)))
termination_by v => sizeOf v
decreasing_by
  have h := List.sizeOf_lt_of_mem p.2
  cases hp : p.1 with
  | mk k v =>
      rw [hp] at h
      simp only [Prod.mk.sizeOf_spec] at h
      simp only [hp]
      simp only [XV.xdictV.sizeOf_spec]
      omega

/-! ## Theorems for C7 -/

/-- Unfolded form of the lexicographic comparison on nonempty lists. -/
lemma charListLe_cons {c d : Char} {cs ds : List Char} :
    charListLe (c :: cs) (d :: ds) = true ↔ (c < d ∨ (c = d ∧ charListLe cs ds = true)) := by
  by_cases h1 : c < d
  · simp [charListLe, h1]
  · by_cases h2 : d < c
    · simp [charListLe, h1, h2, ne_of_gt h2]
    · have hcd : c = d := le_antisymm (not_lt.mp h2) (not_lt.mp h1)
      simp [charListLe, h1, h2, hcd]

/-- Totality of the lexicographic comparison. -/
lemma charListLe_total : ∀ (a b : List Char),
    charListLe a b = true ∨ charListLe b a = true := by
  intro a
  induction a with
  | nil => intro b; left; rfl
  | cons c cs ih =>
      intro b
      cases b with
      | nil => right; rfl
      | cons d ds =>
          rcases lt_trichotomy c d with h | h | h
          · exact Or.inl (charListLe_cons.mpr (Or.inl h))
          · rcases ih ds with ht | ht
            · exact Or.inl (charListLe_cons.mpr (Or.inr ⟨h, ht⟩))
            · exact Or.inr (charListLe_cons.mpr (Or.inr ⟨h.symm, ht⟩))
          · exact Or.inr (charListLe_cons.mpr (Or.inl h))

/-- Transitivity of the lexicographic comparison. -/
lemma charListLe_trans : ∀ (a b c : List Char),
    charListLe a b = true → charListLe b c = true → charListLe a c = true := by
  intro a
  induction a with
  | nil => intro b c _ _; rfl
  | cons x xs ih =>
      intro b c h1 h2
      cases b with
      | nil => exact absurd h1 (by simp [charListLe])
      | cons y ys =>
          cases c with
          | nil => exact absurd h2 (by simp [charListLe])
          | cons z zs =>
              rcases charListLe_cons.mp h1 with hxy | ⟨hxy, t1⟩ <;>
                rcases charListLe_cons.mp h2 with hyz | ⟨hyz, t2⟩
              · exact charListLe_cons.mpr (Or.inl (lt_trans hxy hyz))
              · exact charListLe_cons.mpr (Or.inl (hyz ▸ hxy))
              · exact charListLe_cons.mpr (Or.inl (hxy ▸ hyz))
              · exact charListLe_cons.mpr (Or.inr ⟨hxy.trans hyz, ih ys zs t1 t2⟩)

/-- Antisymmetry of the lexicographic comparison. -/
lemma charListLe_antisymm : ∀ (a b : List Char),
    charListLe a b = true → charListLe b a = true → a = b := by
  intro a
  induction a with
  | nil =>
      intro b _ h2
      cases b with
      | nil => rfl
      | cons d ds => exact absurd h2 (by simp [charListLe])
  | cons x xs ih =>
      intro b h1 h2
      cases b with
      | nil => exact absurd h1 (by simp [charListLe])
      | cons y ys =>
          rcases charListLe_cons.mp h1 with hxy | ⟨hxy, t1⟩ <;>
            rcases charListLe_cons.mp h2 with hyx | ⟨hyx, t2⟩
          · exact absurd hyx (lt_asymm hxy)
          · exact absurd (hyx ▸ hxy) (lt_irrefl y)
          · exact absurd (hxy ▸ hyx) (lt_irrefl y)
          · rw [hxy, ih ys t1 t2]

instance : IsTotal String (fun a b => strLe a b = true) :=
  ⟨fun a b => charListLe_total a.data b.data⟩

instance : IsTrans String (fun a b => strLe a b = true) :=
  ⟨fun a b c => charListLe_trans a.data b.data c.data⟩

instance : IsAntisymm String (fun a b => strLe a b = true) :=
  ⟨fun a b h1 h2 => by
    cases a with
    | mk da =>
        cases b with
        | mk db => exact congrArg String.mk (charListLe_antisymm da db h1 h2)⟩

/-- Unfolding of renderX on a dict in terms of a plain map over the
entries. -/
lemma renderX_dict_eq (es : List (String × XV)) :
    renderX (.xdictV es) = renderDict (es.map (fun p => (p.1, renderX p.2))) := by
  rw [renderX]
  congr 1
  exact List.attach_map_val es (fun q => (q.1, renderX q.2))

/-- On association lists with distinct keys, find? by key is invariant under
permutation of the entries. -/
lemma find?_eq_of_perm {α : Type} {ps1 ps2 : List (String × α)} (hp : ps1.Perm ps2)
    (hnd : (ps1.map Prod.fst).Nodup) (k : String) :
    ps1.find? (fun p => p.1 == k) = ps2.find? (fun p => p.1 == k) := by
  induction hp with
  | nil => rfl
  | cons x hpl ih =>
      by_cases hx : (x.1 == k) = true
      · simp only [List.find?, hx]
      · have hx' : (x.1 == k) = false := by simpa using hx
        simp only [List.find?, hx']
        exact ih ((List.nodup_cons.mp (by simpa using hnd)).2)
  | swap x y l =>
      have hxy : y.1 ≠ x.1 := by
        simp only [List.map_cons, List.nodup_cons, List.mem_cons] at hnd
        exact fun h => hnd.1 (Or.inl h)
      by_cases hy : (y.1 == k) = true <;> by_cases hx : (x.1 == k) = true
      · exact absurd (by rw [eq_of_beq hy, eq_of_beq hx]) hxy
      · have hx' : (x.1 == k) = false := by simpa using hx
        simp only [List.find?, hy, hx']
      · have hy' : (y.1 == k) = false := by simpa using hy
        simp only [List.find?, hy', hx]
      · have hx' : (x.1 == k) = false := by simpa using hx
        have hy' : (y.1 == k) = false := by simpa using hy
        simp only [List.find?, hx', hy']
  | trans h1 h2 ih1 ih2 =>
      rw [ih1 hnd, ih2 (((h1.map Prod.fst).nodup_iff).mp hnd)]

/-- Rendering of already-rendered entry lists is invariant under permutation
when the keys are distinct. -/
lemma renderDict_perm {ps1 ps2 : List (String × String)} (hp : ps1.Perm ps2)
    (hnd : (ps1.map Prod.fst).Nodup) :
    renderDict ps1 = renderDict ps2 := by
  have hk : (ps1.map Prod.fst).Perm (ps2.map Prod.fst) := hp.map Prod.fst
  have hsorted :
      List.insertionSort (fun a b => strLe a b = true) (ps1.map Prod.fst)
        = List.insertionSort (fun a b => strLe a b = true) (ps2.map Prod.fst) :=
    List.eq_of_perm_of_sorted
      ((List.perm_insertionSort _ _).trans
        (hk.trans (List.perm_insertionSort _ _).symm))
      (List.sorted_insertionSort _ _) (List.sorted_insertionSort _ _)
  have hfind : ∀ k,
      (((ps1.find? (fun p => p.1 == k)).map Prod.snd).getD "")
        = (((ps2.find? (fun p => p.1 == k)).map Prod.snd).getD "") := by
    intro k
    rw [find?_eq_of_perm hp hnd k]
  unfold renderDict
  rw [hsorted]
  exact congrArg
    (fun pairs => "\x7b" ++ String.intercalate ", " pairs ++ "\x7d")
    (List.map_congr_left (fun k _ => by rw [hfind k]))

/-- C7: dict rendering sorts the keys ascending before building the braced
key-value text, so any two dicts holding identical key-value content — entry
lists that are permutations of one another, with distinct keys — render to
the identical string regardless of insertion order; in particular the dict
with entries b maps to 1 and a maps to 2 renders with a first. -/
theorem c7_dict_render_order_independent :
    (∀ (es1 es2 : List (String × XV)), es1.Perm es2 → (es1.map Prod.fst).Nodup →
        renderX (.xdictV es1) = renderX (.xdictV es2))
    ∧ renderX (.xdictV [("b", .xnumber 1), ("a", .xnumber 2)]) = "\x7ba: 2, b: 1\x7d" := by
  constructor
  · intro es1 es2 hp hnd
    rw [renderX_dict_eq, renderX_dict_eq]
    refine renderDict_perm (hp.map _) ?_
    have : (es1.map (fun p => (p.1, renderX p.2))).map Prod.fst = es1.map Prod.fst := by
      rw [List.map_map]
      rfl
    rw [this]
    exact hnd
  · rw [renderX_dict_eq]
    have h1 : renderX (.xnumber 1) = "1" := by rw [renderX]; rfl
    have h2 : renderX (.xnumber 2) = "2" := by rw [renderX]; rfl
    simp only [List.map_cons, List.map_nil, h1, h2]
    decide

/-- Witness for C7 at concrete dicts: the two insertion orders of the same
two entries render identically. -/
theorem c7_dict_render_order_independent_witness :
    renderX (.xdictV [("b", .xnumber 1), ("a", .xnumber 2)])
      = renderX (.xdictV [("a", .xnumber 2), ("b", .xnumber 1)]) :=
  c7_dict_render_order_independent.1 _ _
    (List.Perm.swap _ _ _) (by decide)

/-! ## Context resolver (src/utils/misc.go, ResolveVariable)

The resolver walks dynamically typed context values.  The embedding closes
the interface universe over the concrete kinds the source provides: the
atom kinds ToXAtom recognises (nil, error, string, decimal, bool, Array),
the mapResolver (Resolvable and Atomizable), and an opaque foreign value
implementing none of the capability interfaces — the case the terminal kind
check exists to catch. -/

/-- Context value universe for the resolver.  rmap embeds mapResolver,
rlist embeds utils.Array (an atom kind of ToXAtom which also supports
length plus integer indexing), and rforeign embeds a context value of a
foreign type with no capability interfaces. -/
inductive RVal where
  | rnil
  | rerr (m : String)
  | rstr (s : String)
  | rnum (q : Rat)
  | rbool (b : Bool)
  | rmap (kvs : List (String × RVal))
  | rlist (xs : List RVal)
  | rforeign (tag : String)

/-- Embedding of utils.IsNil on the value universe. -/
def isNilV : RVal → Bool
  | .rnil => true
  | _ => false

/-- Whether the value is a Go error, the variable.(error) assertion. -/
def isErrV : RVal → Bool
  | .rerr _ => true
  | _ => false

/-- Whether ToXAtom succeeds on the value: nil, error, string, decimal,
bool and Array are the recognised atom kinds. -/
def atomOk : RVal → Bool
  | .rnil => true
  | .rerr _ => true
  | .rstr _ => true
  | .rnum _ => true
  | .rbool _ => true
  | .rlist _ => true
  | _ => false

/-- Whether the value implements Atomizable: the mapResolver does (src);
the foreign opaque value does not, and the atom kinds never reach the
check. -/
def isAtomizable : RVal → Bool
  | .rmap _ => true
  | _ => false

/-- Indexable view of a value.  Modelled from the spec: the indexable
capability supports length plus integer indexing; the Array container
exposes its elements in order. -/
def indexableOf : RVal → Option (List RVal)
  | .rlist xs => some xs
  | _ => none

/-- Resolvable view of a value: mapResolver.Resolve looks the key up and
returns a no-key error value when it is missing (src). -/
def resolveKeyOf : RVal → String → Option RVal
  | .rmap kvs, k =>
      some (match kvs.find? (fun p => p.1 == k) with
            | some p => p.2
            | none => .rerr ("no key '" ++ k ++ "' in map"))
  | _, _ => none

/-- Dynamic type name of a value, as reflect.TypeOf prints it inside the
cannot-resolve error message. -/
def typeNameOf : RVal → String
  | .rnil => "nil"
  | .rerr _ => "*errors.errorString"
  | .rstr _ => "string"
  | .rnum _ => "decimal.Decimal"
  | .rbool _ => "bool"
  | .rmap _ => "*utils.mapResolver"
  | .rlist _ => "utils.Array"
  | .rforeign tag => tag

/-- Embedding of strconv.Atoi on the key: an optional sign followed by one
or more digits and nothing else, failing outside the signed 64 bit range. -/
def parseIntKey (key : List Char) : Option Int :=
  let p : Int × List Char :=
    match key with
    | '+' :: r => (1, r)
    | '-' :: r => (-1, r)
    | r => (1, r)
  if p.2 = [] ∨ ¬ (p.2.all Char.isDigit) then none
  else
    let v : Int := p.1 * (digitsVal p.2 : Int)
    if v < -(2 ^ 63) ∨ v > 2 ^ 63 - 1 then none else some v

/-- Go slice indexing, as xarray.Index and URNList.Index perform it with no
bounds check of their own; none models the runtime bounds panic. -/
def safeIndex (xs : List RVal) (i : Int) : Option RVal :=
  if 0 ≤ i then xs.get? i.toNat else none

/-- Outcome of one iteration of the resolution loop. -/
inductive Step where
  | ret (v : RVal)
  | next (v : RVal)
  | ipanic

/-- One iteration of the ResolveVariable loop on the already-popped key:
first the nil check; then, when the key parses as an integer and the value
is indexable, the bounds guard rejects indices outside the interval from
minus length to length, a negative index is shifted by the length, and the
element is read; otherwise the value resolves the key when it is resolvable
(an error result being returned immediately) and a cannot-resolve error is
returned when it is not. -/
def stepOnce (v : RVal) (key : List Char) : Step :=
  if isNilV v then .ret (.rerr ("can't resolve key '" ++ key.asString ++ "' of nil"))
  else
    match parseIntKey key, indexableOf v with
    | some idx, some xs =>
        if idx ≥ (xs.length : Int) ∨ idx < -(xs.length : Int) then
          .ret (.rerr ("index " ++ toString idx ++ " out of range for "
            ++ toString xs.length ++ " items"))
        else
          match safeIndex xs (if idx < 0 then idx + (xs.length : Int) else idx) with
          | some w => .next w
          | none => .ipanic
    | _, _ =>
        match resolveKeyOf v key.asString with
        | some r => if isErrV r then .ret r else .next r
        | none => .ret (.rerr ("can't resolve key '" ++ key.asString ++ "' of type "
            ++ typeNameOf v))

/-- Head character of the first special position found. -/
lemma findSpecial_zero_head {l : List Char} {c : Char}
    (h : findSpecial l = some (0, c)) : l.head? = some c := by
  cases l with
  | nil => exact absurd h (by simp [findSpecial])
  | cons x xs =>
      by_cases hx : isSpecialChar x
      · simp only [findSpecial, hx, if_true] at h
        cases h
        rfl
      · simp only [findSpecial, hx, if_false, Option.map] at h
        cases hfs : findSpecial xs with
        | none => rw [hfs] at h; cases h
        | some p => rw [hfs] at h; simp at h

/-- The rest returned by popNextVariable is strictly shorter than a
nonempty input, which makes the resolution loop terminate. -/
lemma popNextVariable_rest_lt (input : List Char) (h : input ≠ []) :
    (popNextVariable input).2.length < input.length := by
  have hlen : 0 < input.length := List.length_pos.mpr h
  unfold popNextVariable
  dsimp only
  rcases hfs : findSpecial (input.drop (if input.head? = some '[' then 1 else 0))
    with _ | ⟨j, c⟩
  · simpa using hlen
  · dsimp only
    rw [List.length_drop]
    by_cases hc : c = '['
    · rw [if_pos hc]
      by_cases hb : input.head? = some '['
      · rw [if_pos hb]
        omega
      · rw [if_neg hb]
        have hj : j ≠ 0 := by
          intro hj0
          subst hj0
          rw [if_neg hb, List.drop_zero] at hfs
          exact hb (findSpecial_zero_head (hc ▸ hfs))
        omega
    · rw [if_neg hc]
      by_cases hb : input.head? = some '['
      · rw [if_pos hb]
        omega
      · rw [if_neg hb]
        omega

/-- Outcome of the resolution loop. -/
inductive LoopRes where
  | done (v : RVal)
  | early (v : RVal)
  | ipanic

/-- Embedding of the ResolveVariable loop: while path remains, pop the next
segment and step; an immediate return inside the loop surfaces as early. -/
def resolveLoop (v : RVal) (rest : List Char) : LoopRes :=
  if h : rest = [] then .done v
  else
    match stepOnce v (popNextVariable rest).1 with
    | .ret e => .early e
    | .ipanic => .ipanic
    | .next w => resolveLoop w (popNextVariable rest).2
termination_by rest.length
decreasing_by
  exact popNextVariable_rest_lt rest h

/-- Outcome of ResolveVariable: a returned value (possibly an error value),
the terminal kind-check panic, or a slice bounds panic. -/
inductive RRes where
  | val (v : RVal)
  | kindPanic
  | ipanic

/-- Leading dot stripping at the top of ResolveVariable. -/
def stripDot (key : List Char) : List Char :=
  if key.head? = some '.' then key.tail else key

/-- Embedding of ResolveVariable: an error root is returned as is; an empty
path returns the root; otherwise the loop runs on the path with a leading
dot stripped, and the terminal value must be an atom kind or atomizable —
anything else triggers the engine panic. -/
def resolveVariable (v : RVal) (key : List Char) : RRes :=
  if isErrV v then .val v
  else if key = [] then .val v
  else
    match resolveLoop v (stripDot key) with
    | .early e => .val e
    | .ipanic => .ipanic
    | .done w => if atomOk w ∨ isAtomizable w then .val w else .kindPanic

/-! ## Theorems for C3, C8 and C10 -/

/-- Under the bounds guard of the resolver, the normalized index is in
range, so the unchecked slice read succeeds and returns the element at that
position. -/
lemma safeIndex_of_inrange (xs : List RVal) (idx : Int)
    (h : ¬ (idx ≥ (xs.length : Int) ∨ idx < -(xs.length : Int))) :
    ∃ w, safeIndex xs (if idx < 0 then idx + (xs.length : Int) else idx) = some w
      ∧ xs.get? (if idx < 0 then idx + (xs.length : Int) else idx).toNat = some w := by
  push_neg at h
  have h0 : 0 ≤ (if idx < 0 then idx + (xs.length : Int) else idx) := by
    split <;> omega
  have hlt : (if idx < 0 then idx + (xs.length : Int) else idx).toNat < xs.length := by
    split <;> omega
  have hw : xs.get? (if idx < 0 then idx + (xs.length : Int) else idx).toNat
      = some (xs.get ⟨_, hlt⟩) := List.get?_eq_get hlt
  refine ⟨xs.get ⟨_, hlt⟩, ?_, hw⟩
  unfold safeIndex
  rw [if_pos h0]
  exact hw

/-- Every immediate return produced inside the resolution loop is an error
value. -/
lemma stepOnce_ret_err (v : RVal) (key : List Char) (e : RVal)
    (h : stepOnce v key = .ret e) : ∃ m, e = RVal.rerr m := by
  unfold stepOnce at h
  split at h
  · cases h
    exact ⟨_, rfl⟩
  · split at h
    · split at h
      · cases h
        exact ⟨_, rfl⟩
      · split at h
        · cases h
        · cases h
    · split at h
      · split at h
        · rename_i r hres herr
          injection h with h2
          subst h2
          cases r <;> simp [isErrV] at herr
          exact ⟨_, rfl⟩
        · cases h
      · cases h
        exact ⟨_, rfl⟩

/-- The slice bounds panic is unreachable in a resolution step: the guard
rejects every index the read could fail on. -/
lemma stepOnce_not_ipanic (v : RVal) (key : List Char) :
    stepOnce v key ≠ Step.ipanic := by
  intro h
  unfold stepOnce at h
  split at h
  · cases h
  · split at h
    · split at h
      · cases h
      · rename_i idx xs hpk hidx hguard
        obtain ⟨w, hw, _⟩ := safeIndex_of_inrange xs idx hguard
        rw [hw] at h
        cases h
    · split at h
      · split at h
        · cases h
        · cases h
      · cases h

/-- The resolution loop either finishes with a terminal value or returns an
error value early; it never hits the slice bounds panic. -/
lemma resolveLoop_cases : ∀ (n : Nat) (v : RVal) (rest : List Char), rest.length ≤ n →
    (∃ w, resolveLoop v rest = .done w)
      ∨ (∃ m, resolveLoop v rest = .early (.rerr m)) := by
  intro n
  induction n with
  | zero =>
      intro v rest hle
      have hnil : rest = [] := List.eq_nil_of_length_eq_zero (Nat.le_zero.mp hle)
      subst hnil
      left
      exact ⟨v, by rw [resolveLoop]; rfl⟩
  | succ k ih =>
      intro v rest hle
      by_cases hre : rest = []
      · subst hre
        left
        exact ⟨v, by rw [resolveLoop]; rfl⟩
      · rw [resolveLoop, dif_neg hre]
        rcases hstep : stepOnce v (popNextVariable rest).1 with e | w | _
        · dsimp only
          right
          obtain ⟨m, hm⟩ := stepOnce_ret_err v _ e hstep
          exact ⟨m, by rw [hm]⟩
        · dsimp only
          exact ih w _ (by
            have := popNextVariable_rest_lt rest hre
            omega)
        · exact absurd hstep (stepOnce_not_ipanic v _)

/-- Trichotomy of the resolution loop at its own length bound. -/
lemma resolveLoop_trichotomy (v : RVal) (rest : List Char) :
    (∃ w, resolveLoop v rest = .done w)
      ∨ (∃ m, resolveLoop v rest = .early (.rerr m)) :=
  resolveLoop_cases rest.length v rest le_rfl

/-- C3: at a resolution step whose segment parses as the integer i, on an
indexable value of length n, an index in the interval from minus n to n
exclusive yields the element at that index (a negative index counting from
the end, i.e. the element at i plus n), and an index outside that interval
yields a bounds error as a returned value rather than aborting. -/
theorem c3_integer_index_step :
    ∀ (xs : List RVal) (key : List Char) (i : Int),
      parseIntKey key = some i →
      ((-(xs.length : Int) ≤ i ∧ i < (xs.length : Int)) →
          ∃ w, xs.get? (if i < 0 then i + (xs.length : Int) else i).toNat = some w
            ∧ stepOnce (.rlist xs) key = .next w)
      ∧ ((i < -(xs.length : Int) ∨ (xs.length : Int) ≤ i) →
          stepOnce (.rlist xs) key
            = .ret (.rerr ("index " ++ toString i ++ " out of range for "
                ++ toString xs.length ++ " items"))) := by
  intro xs key i hp
  constructor
  · intro hin
    have hguard : ¬ (i ≥ (xs.length : Int) ∨ i < -(xs.length : Int)) := by omega
    obtain ⟨w, hw, hget⟩ := safeIndex_of_inrange xs i hguard
    refine ⟨w, hget, ?_⟩
    unfold stepOnce
    rw [if_neg (by simp [isNilV])]
    simp only [hp, indexableOf]
    rw [if_neg hguard, hw]
  · intro hout
    have hguard : i ≥ (xs.length : Int) ∨ i < -(xs.length : Int) := by omega
    unfold stepOnce
    rw [if_neg (by simp [isNilV])]
    simp only [hp, indexableOf]
    rw [if_pos hguard]

/-- Witness for C3 at a concrete list of two numbers: index 1 resolves to
the second element, index -1 resolves to the last element, and index 5
returns the bounds error value. -/
theorem c3_integer_index_step_witness :
    (∃ w, [RVal.rnum 1, RVal.rnum 2].get?
          (if (1 : Int) < 0 then 1 + ((2 : Nat) : Int) else 1).toNat = some w
        ∧ stepOnce (.rlist [RVal.rnum 1, RVal.rnum 2]) "1".data = .next w)
      ∧ stepOnce (.rlist [RVal.rnum 1, RVal.rnum 2]) "5".data
          = .ret (.rerr ("index " ++ toString (5 : Int) ++ " out of range for "
              ++ toString (2 : Nat) ++ " items")) :=
  ⟨(c3_integer_index_step [RVal.rnum 1, RVal.rnum 2] "1".data 1 (by decide)).1
      (by constructor <;> decide),
   (c3_integer_index_step [RVal.rnum 1, RVal.rnum 2] "5".data 5 (by decide)).2
      (by right; decide)⟩

/-- C8: every step-level resolution failure is returned as an error value —
each early return of the loop carries an error — and the one aborting path
is the terminal kind check: ResolveVariable panics exactly when the root is
not itself an error, the path is nonempty, and the loop finishes with a
value that is neither an atom kind nor atomizable. -/
theorem c8_panic_only_at_kind_check :
    (∀ (v : RVal) (rest : List Char) (e : RVal),
        resolveLoop v rest = .early e → ∃ m, e = RVal.rerr m)
    ∧ (∀ (v : RVal) (key : List Char),
        resolveVariable v key = .kindPanic ↔
          (isErrV v = false ∧ key ≠ []
            ∧ ∃ w, resolveLoop v (stripDot key) = .done w
                ∧ atomOk w = false ∧ isAtomizable w = false)) := by
  constructor
  · intro v rest e he
    rcases resolveLoop_trichotomy v rest with ⟨w, hw⟩ | ⟨m, hm⟩
    · rw [hw] at he
      cases he
    · rw [hm] at he
      injection he with he2
      exact ⟨m, he2.symm⟩
  · intro v key
    constructor
    · intro h
      unfold resolveVariable at h
      split at h
      · cases h
      · split at h
        · cases h
        · rename_i herr hkey
          rcases hl : resolveLoop v (stripDot key) with w | e | _
          · rw [hl] at h
            dsimp only at h
            split at h
            · cases h
            · rename_i hcond
              refine ⟨by simpa using herr, hkey, w, rfl, ?_, ?_⟩
              · cases hao : atomOk w
                · rfl
                · exact absurd (Or.inl hao) hcond
              · cases haz : isAtomizable w
                · rfl
                · exact absurd (Or.inr haz) hcond
          · rw [hl] at h
            dsimp only at h
            cases h
          · rw [hl] at h
            dsimp only at h
            cases h
    · rintro ⟨h1, h2, w, hw, ha, hb⟩
      unfold resolveVariable
      rw [if_neg (by simp [h1]), if_neg h2, hw]
      dsimp only
      rw [if_neg (by simp [ha, hb])]

/-- Witness for C8: resolving the key x on a map holding a foreign
non-atomizable value finishes the loop on that value and triggers the
terminal kind-check panic. -/
theorem c8_panic_only_at_kind_check_witness :
    resolveVariable (.rmap [("x", .rforeign "flows.Channel")]) "x".data = .kindPanic := by
  have hloop : resolveLoop (.rmap [("x", .rforeign "flows.Channel")]) "x".data
      = .done (.rforeign "flows.Channel") := by
    rw [resolveLoop]
    rw [dif_neg (by decide)]
    have hstep : stepOnce (.rmap [("x", .rforeign "flows.Channel")])
        (popNextVariable "x".data).1 = .next (.rforeign "flows.Channel") := rfl
    rw [hstep]
    dsimp only
    rw [resolveLoop]
    rfl
  exact (c8_panic_only_at_kind_check.2 _ _).mpr
    ⟨rfl, by decide, ⟨.rforeign "flows.Channel", hloop, rfl, rfl⟩⟩

/-- C10: the unchecked slice read behind Index is safe under the
precondition that the index is nonnegative and below the length, and the
out-of-range read is unreachable through ResolveVariable — every resolution
ends in a returned value or the terminal kind-check panic, never in a slice
bounds panic. -/
theorem c10_index_unreachable_oob :
    (∀ (xs : List RVal) (i : Int), 0 ≤ i → i.toNat < xs.length →
        ∃ w, safeIndex xs i = some w ∧ xs.get? i.toNat = some w)
    ∧ (∀ (v : RVal) (key : List Char),
        (∃ w, resolveVariable v key = .val w)
          ∨ resolveVariable v key = .kindPanic) := by
  constructor
  · intro xs i h0 hlt
    have hw : xs.get? i.toNat = some (xs.get ⟨i.toNat, hlt⟩) := List.get?_eq_get hlt
    refine ⟨xs.get ⟨i.toNat, hlt⟩, ?_, hw⟩
    unfold safeIndex
    rw [if_pos h0]
    exact hw
  · intro v key
    unfold resolveVariable
    split
    · exact Or.inl ⟨v, rfl⟩
    · split
      · exact Or.inl ⟨v, rfl⟩
      · rcases resolveLoop_trichotomy v (stripDot key) with ⟨w, hw⟩ | ⟨m, hm⟩
        · rw [hw]
          dsimp only
          split
          · exact Or.inl ⟨w, rfl⟩
          · exact Or.inr rfl
        · rw [hm]
          exact Or.inl ⟨.rerr m, rfl⟩

/-- Witness for C10 at concrete inputs: the safe read of index 1 in a two
element list returns the second element, and a concrete resolution through
an index returns a value. -/
theorem c10_index_unreachable_oob_witness :
    (∃ w, safeIndex [RVal.rnum 1, RVal.rnum 2] 1 = some w
        ∧ [RVal.rnum 1, RVal.rnum 2].get? (1 : Int).toNat = some w)
      ∧ ((∃ w, resolveVariable (.rlist [RVal.rnum 7]) "0".data = .val w)
          ∨ resolveVariable (.rlist [RVal.rnum 7]) "0".data = .kindPanic) :=
  ⟨c10_index_unreachable_oob.1 [RVal.rnum 1, RVal.rnum 2] 1 (by decide) (by decide),
   c10_index_unreachable_oob.2 (.rlist [RVal.rnum 7]) "0".data⟩

end Goflow
